import Mathlib

/-!
Shallow embedding of the RBAC resolution engine of `casbin/enforcer.py`
(class `Enforcer`), together with models of the external collaborators it
is built on (Policy Store, Role Graphs, Matcher), which are described by
the specification but whose code is not part of the source tree.

Rules are ordered tuples of strings.  A `State` holds the permission rule
family `p` and the grouping relations `gs` (relation name, e.g. `g`, `g2`,
mapped to that relation's list of grouping rules), which also plays the
role of the enforcer's `rm_map` registry.
-/

abbrev Rule := List String

structure State where
  p : List Rule
  gs : List (String × List Rule)
deriving DecidableEq, Repr

/-- Modelled from the spec: a Role Graph edge is `(grantee, grantor, domain?)`
(spec section 3); a grouping rule `[u, r]` is a global edge and `[u, r, d]` a
domain-scoped edge.  `edgeRole name dom rule` returns the grantor when `rule`
is an edge out of `name` matching the optional query domain. -/
def edgeRole (name : String) (dom : Option String) (rule : Rule) : Option String :=
  match rule, dom with
  | [u, r], none => if u = name then some r else none
  | [u, r, d], some d2 => if u = name && d = d2 then some r else none
  | _, _ => none

/-- Modelled from the spec: `RoleGraph.get_roles(entity, domain?)` (spec
sections 2 and 6), the direct grantors of `name` in one grouping relation. -/
def get_roles (rules : List Rule) (name : String) (dom : Option String) : List String :=
  rules.filterMap (edgeRole name dom)

/-- Modelled from the spec: the position-wise match used by filtered Policy
Store lookup and removal ("match a tuple where a subset of positions equal
given values", spec section 2); `matchFrom rest values` checks the values
against consecutive positions of `rest`. -/
def matchFrom : List String → List String → Bool
  | _, [] => true
  | [], _ :: _ => false
  | x :: xs, v :: vs => x == v && matchFrom xs vs

/-- Modelled from the spec: `get_filtered_policy(start, values)` of the
management layer, a filtered lookup on the permission rule family. -/
def get_filtered_policy (st : State) (start : Nat) (values : List String) : List Rule :=
  st.p.filter (fun r => matchFrom (r.drop start) values)

/-- Modelled from the spec: `remove_filtered_policy` of the management layer;
returns the new state and whether any rule was removed. -/
def remove_filtered_policy (st : State) (start : Nat) (values : List String) :
    State × Bool :=
  (⟨st.p.filter (fun r => !matchFrom (r.drop start) values), st.gs⟩,
    st.p.any (fun r => matchFrom (r.drop start) values))

/-- Replace the value stored under `key` in an association list, appending a
new entry when the key is absent. -/
def updateAssoc (gs : List (String × List Rule)) (key : String) (v : List Rule) :
    List (String × List Rule) :=
  match gs with
  | [] => [(key, v)]
  | (k, rules) :: rest =>
      if k = key then (k, v) :: rest else (k, rules) :: updateAssoc rest key v

/-- The rule list of the default grouping relation `g`. -/
def getG (st : State) : List Rule :=
  (st.gs.lookup "g").getD []

/-- Update the rule list of the default grouping relation `g`. -/
def setG (st : State) (rules : List Rule) : State :=
  ⟨st.p, updateAssoc st.gs "g" rules⟩

/-- Modelled from the spec: `add_grouping_policy` of the management layer;
adding a rule already present is a no-op reported as not affected (spec
section 3). -/
def add_grouping_policy (st : State) (rule : Rule) : State × Bool :=
  if rule ∈ getG st then (st, false)
  else (setG st (getG st ++ [rule]), true)

/-- Modelled from the spec: `remove_grouping_policy` of the management layer;
removing an absent rule is a no-op reported as not affected. -/
def remove_grouping_policy (st : State) (rule : Rule) : State × Bool :=
  if rule ∈ getG st then (setG st ((getG st).erase rule), true)
  else (st, false)

/-- Modelled from the spec: `remove_filtered_grouping_policy` of the
management layer, a filtered bulk removal on the default grouping relation. -/
def remove_filtered_grouping_policy (st : State) (start : Nat) (values : List String) :
    State × Bool :=
  (setG st ((getG st).filter (fun r => !matchFrom (r.drop start) values)),
    (getG st).any (fun r => matchFrom (r.drop start) values))

/-- Modelled from the spec: `join_slice(user, *permission)` concatenates the
subject and the permission fields into one request tuple. -/
def join_slice (user : String) (permission : List String) : List String :=
  user :: permission

/-- Modelled from the spec: first-occurrence deduplication used by the
management layer's value getters (`get_all_subjects`, `get_all_roles`
return sets of values). -/
def uniq (l : List String) : List String :=
  l.foldl (fun acc r => if r ∈ acc then acc else acc ++ [r]) []

/-- Modelled from the spec: `get_all_subjects` of the management layer, the
set of all subjects (position 0) appearing in any permission rule. -/
def get_all_subjects (st : State) : List String :=
  uniq (st.p.filterMap (fun r => r.get? 0))

/-- Every grantor (position 1 of a grouping rule) of any grouping relation;
this is also the universe bounding the role-closure traversal. -/
def allGrantors (st : State) : List String :=
  (st.gs.map (fun pr => pr.2.filterMap (fun r => r.get? 1))).flatten

/-- Modelled from the spec: `get_all_roles` of the management layer, the set
of all entities acting as a grantor in any grouping relation (spec
section 4.4). -/
def get_all_roles (st : State) : List String :=
  uniq (allGrantors st)

/-- Modelled from the spec: `set_subtract(a, b)` keeps the elements of `a`
that do not occur in `b`, preserving order. -/
def set_subtract (a b : List String) : List String :=
  a.filter (fun x => decide (x ∉ b))

/-- Inner loops of `get_implicit_roles_for_user` (lines 130-135): append to
`res` each role not already present, in order of discovery. -/
def addNew (res : List String) (roles : List String) : List String :=
  roles.foldl (fun acc r => if r ∈ acc then acc else acc ++ [r]) res

/-- One dequeue step over an explicit list of grouping relations: consult
every relation's role graph for the popped entity `n` and accumulate the
fresh discoveries onto `res`. -/
def expandList (gsL : List (String × List Rule)) (dom : Option String) (n : String)
    (res : List String) : List String :=
  gsL.foldl (fun acc pr => addNew acc (get_roles pr.2 n dom)) res

/-- The `for rm in self.rm_map.values()` body of lines 130-135 for one popped
entity. -/
def expand (st : State) (dom : Option String) (n : String) (res : List String) :
    List String :=
  expandList st.gs dom n res

/-- The while loop of lines 127-135, with an explicit fuel bounding the
number of dequeues; the entities appended to the queue are exactly the
entities freshly appended to `res` by `expand`. -/
def bfsAux (st : State) (dom : Option String) (fuel : Nat) (queue res : List String) :
    List String :=
  match queue, fuel with
  | [], _ => res
  | _ :: _, 0 => res
  | n :: t, fuel + 1 =>
      bfsAux st dom fuel (t ++ (expand st dom n res).drop res.length)
        (expand st dom n res)

/-- The sequence of entities popped (and expanded) by the while loop of
lines 127-135, under the same fuel discipline as `bfsAux`. -/
def bfsTrace (st : State) (dom : Option String) (fuel : Nat) (queue res : List String) :
    List String :=
  match queue, fuel with
  | [], _ => []
  | _ :: _, 0 => []
  | n :: t, fuel + 1 =>
      n :: bfsTrace st dom fuel (t ++ (expand st dom n res).drop res.length)
        (expand st dom n res)

/-- Fuel sufficient for the traversal to drain its queue: one more than the
number of grantor occurrences across all grouping relations. -/
def initFuel (st : State) : Nat :=
  (allGrantors st).length + 1

/-- `get_implicit_roles_for_user` (lines 113-137): breadth-first transitive
role closure across every declared grouping relation. -/
def get_implicit_roles_for_user (st : State) (name : String)
    (dom : Option String) : List String :=
  bfsAux st dom (initFuel st) [name] []

/-- `get_permissions_for_user` (lines 101-105). -/
def get_permissions_for_user (st : State) (user : String) : List Rule :=
  get_filtered_policy st 0 [user]

/-- `get_permissions_for_user_in_domain` (lines 214-216). -/
def get_permissions_for_user_in_domain (st : State) (user : String) (d : String) :
    List Rule :=
  get_filtered_policy st 0 [user, d]

/-- The per-entity fetch of lines 157-162: domain-scoped when a domain was
supplied, plain otherwise. -/
def permsFor (st : State) (dom : Option String) (role : String) : List Rule :=
  match dom with
  | some d => get_permissions_for_user_in_domain st role d
  | none => get_permissions_for_user st role

/-- `get_implicit_permissions_for_user` (lines 139-166): the user is
prepended to the transitive role closure and each entity's direct
permissions are accumulated in order. -/
def get_implicit_permissions_for_user (st : State) (user : String)
    (dom : Option String) : List Rule :=
  (user :: get_implicit_roles_for_user st user dom).foldl
    (fun res role => res ++ permsFor st dom role) []

/-- `get_implicit_users_for_permission` (lines 168-192), parameterized by the
enforcement predicate `enf` (the external Matcher): candidates are the
permission-rule subjects minus the grantors, each checked with `enf`. -/
def get_implicit_users_for_permission (enf : List String → Bool) (st : State)
    (permission : List String) : List String :=
  (set_subtract (get_all_subjects st) (get_all_roles st)).filter
    (fun user => enf (join_slice user permission))

/-- Modelled from the spec: the Matcher/Effector (spec sections 2 and 6) is
an external collaborator; modelled as the standard RBAC matcher, allowing a
request when some permission rule whose non-subject fields match exactly has
the requester or one of the requester's implicit roles as subject. -/
def rbacEnforce (st : State) (req : List String) : Bool :=
  match req with
  | [] => false
  | u :: rest =>
      (u :: get_implicit_roles_for_user st u none).any
        (fun s => decide ((s :: rest) ∈ st.p))

/-- `add_role_for_user` (lines 32-37). -/
def add_role_for_user (st : State) (user role : String) : State × Bool :=
  add_grouping_policy st [user, role]

/-- `delete_role_for_user` (lines 39-44). -/
def delete_role_for_user (st : State) (user role : String) : State × Bool :=
  remove_grouping_policy st [user, role]

/-- `delete_roles_for_user` (lines 46-51). -/
def delete_roles_for_user (st : State) (user : String) : State × Bool :=
  remove_filtered_grouping_policy st 0 [user]

/-- `delete_user` (lines 53-61). -/
def delete_user (st : State) (user : String) : State × Bool :=
  let r1 := remove_filtered_grouping_policy st 0 [user]
  let r2 := remove_filtered_policy r1.1 0 [user]
  (r2.1, r1.2 || r2.2)

/-- `delete_role` (lines 63-71).  Line 70 reads
`res2 = self.remove_filtered_policy(0, role)` with no `await`: the
permission-rule removal coroutine is created but never run, so the
permission family is left untouched, and in `res1 or res2` the coroutine
object is truthy, so the returned value is always truthy. -/
def delete_role (st : State) (role : String) : State × Bool :=
  let r1 := remove_filtered_grouping_policy st 1 [role]
  let res2 := true
  (r1.1, r1.2 || res2)

/-- `delete_roles_for_user_in_domain` (lines 207-212): a filtered removal
keyed on user, role and domain at positions 0, 1 and 2. -/
def delete_roles_for_user_in_domain (st : State) (user role d : String) :
    State × Bool :=
  remove_filtered_grouping_policy st 0 [user, role, d]

/-- Direct role-graph edge in some declared grouping relation. -/
def hasEdge (st : State) (dom : Option String) (u r : String) : Prop :=
  ∃ pr ∈ st.gs, r ∈ get_roles pr.2 u dom

/-- Traversal state of the while loop: pending queue and discovered roles. -/
structure EState where
  queue : List String
  res : List String

/-- Termination measure of the while loop: undiscovered grantors plus
pending queue entries. -/
def meas (st : State) (s : EState) : Nat :=
  ((allGrantors st).toFinset \ s.res.toFinset).card + s.queue.length

/-- Two-edge role cycle `a -> b -> a`. -/
def cycleState : State := ⟨[], [("g", [["a", "b"], ["b", "a"]])]⟩

/-- Two grouping relations: `g` grants alice admin, `g2` grants alice editor. -/
def twoRelState : State := ⟨[], [("g", [["alice", "admin"]]), ("g2", [["alice", "editor"]])]⟩

/-- Permission aggregation example: `p(admin, data1, read)`,
`p(alice, data2, read)`, `g(alice, admin)`. -/
def aggState : State :=
  ⟨[["admin", "data1", "read"], ["alice", "data2", "read"]], [("g", [["alice", "admin"]])]⟩

/-- A permission held by `a` inside the two-edge cycle `a -> b -> a`. -/
def dupState : State :=
  ⟨[["a", "data1", "read"]], [("g", [["a", "b"], ["b", "a"]])]⟩

/-- Implicit-user example: `p(admin, data1, read)`, `p(bob, data1, read)`,
`g(alice, admin)`. -/
def invState : State :=
  ⟨[["admin", "data1", "read"], ["bob", "data1", "read"]], [("g", [["alice", "admin"]])]⟩

/-- A role `r` that appears only as a permission subject. -/
def delState : State := ⟨[["r", "data1", "read"]], [("g", [])]⟩

/-- A store in which alice already holds admin. -/
def heldState : State := ⟨[], [("g", [["alice", "admin"]])]⟩

/-- A store with no grouping rules and no permission rules. -/
def emptyState : State := ⟨[], [("g", [])]⟩

/-- A user holding two roles in the same domain. -/
def domState : State := ⟨[], [("g", [["u", "r1", "d"], ["u", "r2", "d"]])]⟩

theorem addNew_spec (roles : List String) : ∀ res : List String,
    ∃ ex, addNew res roles = res ++ ex ∧ ex.Nodup ∧
      ∀ r ∈ ex, r ∉ res ∧ r ∈ roles := by
  induction roles with
  | nil =>
      intro res
      exact ⟨[], by simp [addNew], by simp, by simp⟩
  | cons r rs ih =>
      intro res
      by_cases hr : r ∈ res
      · obtain ⟨ex, he, hn, hm⟩ := ih res
        refine ⟨ex, ?_, hn, ?_⟩
        · simpa [addNew, hr] using he
        · intro x hx
          obtain ⟨h1, h2⟩ := hm x hx
          exact ⟨h1, by simp [h2]⟩
      · obtain ⟨ex, he, hn, hm⟩ := ih (res ++ [r])
        refine ⟨r :: ex, ?_, ?_, ?_⟩
        · have : addNew res (r :: rs) = addNew (res ++ [r]) rs := by
            simp [addNew, hr]
          rw [this, he, List.append_assoc, List.singleton_append]
        · refine List.nodup_cons.mpr ⟨?_, hn⟩
          intro hre
          have := (hm r hre).1
          simp at this
        · intro x hx
          rcases List.mem_cons.mp hx with h | h
          · subst h; exact ⟨hr, by simp⟩
          · obtain ⟨h1, h2⟩ := hm x h
            constructor
            · intro hc; exact h1 (by simp [hc])
            · simp [h2]

theorem addNew_append (res roles : List String) :
    ∃ ex, addNew res roles = res ++ ex :=
  (addNew_spec roles res).imp (fun _ h => h.1)

theorem mem_addNew (roles : List String) : ∀ (res : List String) (r : String),
    r ∈ roles → r ∈ addNew res roles := by
  induction roles with
  | nil => simp
  | cons x xs ih =>
      intro res r hr
      have hstep : addNew res (x :: xs) =
          addNew (if x ∈ res then res else res ++ [x]) xs := by
        simp [addNew]
      rcases List.mem_cons.mp hr with h | h
      · subst h
        have hx : r ∈ (if r ∈ res then res else res ++ [r]) := by
          split <;> simp_all
        obtain ⟨ex, he⟩ := addNew_append (if r ∈ res then res else res ++ [r]) xs
        rw [hstep, he]
        exact List.mem_append_left _ hx
      · rw [hstep]
        exact ih _ r h

theorem expandList_spec (gsL : List (String × List Rule)) (dom : Option String)
    (n : String) : ∀ res : List String,
    ∃ ex, expandList gsL dom n res = res ++ ex ∧ ex.Nodup ∧
      ∀ r ∈ ex, r ∉ res ∧ ∃ pr ∈ gsL, r ∈ get_roles pr.2 n dom := by
  induction gsL with
  | nil =>
      intro res
      exact ⟨[], by simp [expandList], by simp, by simp⟩
  | cons q qs ih =>
      intro res
      obtain ⟨ex1, he1, hn1, hm1⟩ := addNew_spec (get_roles q.2 n dom) res
      obtain ⟨ex2, he2, hn2, hm2⟩ := ih (addNew res (get_roles q.2 n dom))
      refine ⟨ex1 ++ ex2, ?_, ?_, ?_⟩
      · have hstep : expandList (q :: qs) dom n res =
            expandList qs dom n (addNew res (get_roles q.2 n dom)) := by
          simp [expandList]
        rw [hstep, he2, he1, List.append_assoc]
      · refine List.nodup_append.mpr ⟨hn1, hn2, ?_⟩
        intro x hx1 hx2
        have := (hm2 x hx2).1
        rw [he1] at this
        exact this (List.mem_append_right _ hx1)
      · intro x hx
        rcases List.mem_append.mp hx with h | h
        · obtain ⟨h1, h2⟩ := hm1 x h
          exact ⟨h1, q, by simp, h2⟩
        · obtain ⟨h1, pr, hpr, h2⟩ := hm2 x h
          rw [he1] at h1
          exact ⟨fun hc => h1 (List.mem_append_left _ hc), pr, by simp [hpr], h2⟩

theorem mem_expandList (gsL : List (String × List Rule)) (dom : Option String)
    (n : String) : ∀ (res : List String) (pr : String × List Rule) (r : String),
    pr ∈ gsL → r ∈ get_roles pr.2 n dom → r ∈ expandList gsL dom n res := by
  induction gsL with
  | nil => simp
  | cons q qs ih =>
      intro res pr r hpr hr
      have hstep : expandList (q :: qs) dom n res =
          expandList qs dom n (addNew res (get_roles q.2 n dom)) := by
        simp [expandList]
      rw [hstep]
      rcases List.mem_cons.mp hpr with h | h
      · subst h
        have hx : r ∈ addNew res (get_roles pr.2 n dom) := mem_addNew _ _ _ hr
        obtain ⟨ex, he, _, _⟩ := expandList_spec qs dom n (addNew res (get_roles pr.2 n dom))
        rw [he]
        exact List.mem_append_left _ hx
      · exact ih _ pr r h hr

theorem edgeRole_get (name : String) (dom : Option String) (rule : Rule)
    (r : String) (h : edgeRole name dom rule = some r) : rule.get? 1 = some r := by
  rcases rule with _ | ⟨a, _ | ⟨b, _ | ⟨c, _ | ⟨e, t⟩⟩⟩⟩ <;> rcases dom with _ | d2 <;>
    simp [edgeRole] at h <;> simp_all

theorem mem_allGrantors (st : State) (dom : Option String) (n : String)
    (pr : String × List Rule) (r : String) (hpr : pr ∈ st.gs)
    (hr : r ∈ get_roles pr.2 n dom) : r ∈ allGrantors st := by
  obtain ⟨rule, hrule, heq⟩ := List.mem_filterMap.mp hr
  have h1 : rule.get? 1 = some r := edgeRole_get n dom rule r heq
  have h2 : r ∈ pr.2.filterMap (fun rl => rl.get? 1) :=
    List.mem_filterMap.mpr ⟨rule, hrule, h1⟩
  exact List.mem_flatten.mpr ⟨_, List.mem_map.mpr ⟨pr, hpr, rfl⟩, h2⟩

theorem expand_spec (st : State) (dom : Option String) (n : String)
    (res : List String) :
    ∃ ex, expand st dom n res = res ++ ex ∧ ex.Nodup ∧
      ∀ r ∈ ex, r ∉ res ∧ hasEdge st dom n r := by
  obtain ⟨ex, he, hn, hm⟩ := expandList_spec st.gs dom n res
  exact ⟨ex, he, hn, fun r hr => ⟨(hm r hr).1, (hm r hr).2⟩⟩

theorem meas_expand (st : State) (dom : Option String) (n : String)
    (t res : List String) :
    meas st ⟨t ++ (expand st dom n res).drop res.length, expand st dom n res⟩ + 1 =
      meas st ⟨n :: t, res⟩ := by
  obtain ⟨ex, he, hn, hm⟩ := expand_spec st dom n res
  have hsub : ex.toFinset ⊆ (allGrantors st).toFinset \ res.toFinset := by
    intro x hx
    have hx' : x ∈ ex := List.mem_toFinset.mp hx
    obtain ⟨hnr, pr, hpr, hroles⟩ := hm x hx'
    simp only [Finset.mem_sdiff, List.mem_toFinset]
    exact ⟨mem_allGrantors st dom n pr x hpr hroles, hnr⟩
  have hsd : (allGrantors st).toFinset \ (res ++ ex).toFinset =
      ((allGrantors st).toFinset \ res.toFinset) \ ex.toFinset := by
    ext x
    simp only [Finset.mem_sdiff, List.mem_toFinset, List.mem_append]
    tauto
  have hcard : ((allGrantors st).toFinset \ (res ++ ex).toFinset).card =
      ((allGrantors st).toFinset \ res.toFinset).card - ex.length := by
    rw [hsd, Finset.card_sdiff hsub, List.toFinset_card_of_nodup hn]
  have hle : ex.length ≤ ((allGrantors st).toFinset \ res.toFinset).card := by
    have := Finset.card_le_card hsub
    rwa [List.toFinset_card_of_nodup hn] at this
  simp only [meas, he, List.drop_left, hcard, List.length_append, List.length_cons]
  omega

theorem bfs_fuel_succ (st : State) (dom : Option String) :
    ∀ (f : Nat) (q res : List String), meas st ⟨q, res⟩ ≤ f →
      bfsAux st dom f q res = bfsAux st dom (f + 1) q res := by
  intro f
  induction f with
  | zero =>
      intro q res h
      have hq : q.length = 0 := by
        have : meas st ⟨q, res⟩ = _ + q.length := rfl
        omega
      rcases List.length_eq_zero.mp hq with rfl
      rfl
  | succ f ih =>
      intro q res h
      cases q with
      | nil => rfl
      | cons n t =>
          have hm : meas st ⟨t ++ (expand st dom n res).drop res.length,
              expand st dom n res⟩ ≤ f := by
            have := meas_expand st dom n t res
            omega
          exact ih _ _ hm

theorem bfs_fuel_add (st : State) (dom : Option String) (k : Nat) :
    ∀ (f : Nat) (q res : List String), meas st ⟨q, res⟩ ≤ f →
      bfsAux st dom f q res = bfsAux st dom (f + k) q res := by
  induction k with
  | zero => intro f q res _; rfl
  | succ k ih =>
      intro f q res h
      rw [ih f q res h]
      exact bfs_fuel_succ st dom (f + k) q res (le_trans h (Nat.le_add_right f k))

theorem meas_init_le (st : State) (name : String) :
    meas st ⟨[name], []⟩ ≤ initFuel st := by
  simp only [meas, initFuel, List.toFinset_nil, Finset.sdiff_empty, List.length_cons,
    List.length_nil]
  have := (allGrantors st).toFinset_card_le
  omega

theorem bfs_res_mono (st : State) (dom : Option String) :
    ∀ (f : Nat) (q res : List String) (x : String), x ∈ res →
      x ∈ bfsAux st dom f q res := by
  intro f
  induction f with
  | zero =>
      intro q res x hx
      cases q <;> exact hx
  | succ f ih =>
      intro q res x hx
      cases q with
      | nil => exact hx
      | cons n t =>
          obtain ⟨ex, he, _, _⟩ := expand_spec st dom n res
          have hx' : x ∈ expand st dom n res := by
            rw [he]; exact List.mem_append_left _ hx
          exact ih _ _ x hx'

theorem bfs_sound (st : State) (dom : Option String) (u : String) :
    ∀ (f : Nat) (q res : List String),
      (∀ x ∈ res, Relation.TransGen (hasEdge st dom) u x) →
      (∀ x ∈ q, x = u ∨ Relation.TransGen (hasEdge st dom) u x) →
      ∀ x ∈ bfsAux st dom f q res, Relation.TransGen (hasEdge st dom) u x := by
  intro f
  induction f with
  | zero =>
      intro q res hres _ x hx
      cases q <;> exact hres x hx
  | succ f ih =>
      intro q res hres hq x hx
      cases q with
      | nil => exact hres x hx
      | cons n t =>
          obtain ⟨ex, he, hn, hm⟩ := expand_spec st dom n res
          have hex : ∀ y ∈ ex, Relation.TransGen (hasEdge st dom) u y := by
            intro y hy
            have hedge : hasEdge st dom n y := (hm y hy).2
            rcases hq n (by simp) with h | h
            · subst h; exact Relation.TransGen.single hedge
            · exact Relation.TransGen.tail h hedge
          have hres' : ∀ y ∈ expand st dom n res,
              Relation.TransGen (hasEdge st dom) u y := by
            intro y hy
            rw [he] at hy
            rcases List.mem_append.mp hy with h | h
            · exact hres y h
            · exact hex y h
          have hq' : ∀ y ∈ t ++ (expand st dom n res).drop res.length,
              y = u ∨ Relation.TransGen (hasEdge st dom) u y := by
            intro y hy
            rcases List.mem_append.mp hy with h | h
            · exact hq y (by simp [h])
            · right
              have : y ∈ ex := by
                rw [he, List.drop_left] at h
                exact h
              exact hex y this
          exact ih _ _ hres' hq' x hx

theorem trace_count (st : State) (dom : Option String) :
    ∀ (f : Nat) (q res : List String) (x : String), res.Nodup →
      (bfsTrace st dom f q res).count x ≤
        q.count x + (if x ∈ res then 0 else 1) := by
  intro f
  induction f with
  | zero =>
      intro q res x _
      cases q <;> simp [bfsTrace]
  | succ f ih =>
      intro q res x hnd
      cases q with
      | nil => simp [bfsTrace]
      | cons n t =>
          obtain ⟨ex, he, hexn, hm⟩ := expand_spec st dom n res
          have hstep : bfsTrace st dom (f + 1) (n :: t) res =
              n :: bfsTrace st dom f (t ++ ex) (res ++ ex) := by
            simp only [bfsTrace]
            rw [he, List.drop_left]
          have hnd' : (res ++ ex).Nodup := by
            refine List.nodup_append.mpr ⟨hnd, hexn, ?_⟩
            intro a ha hae
            exact (hm a hae).1 ha
          have hih := ih (t ++ ex) (res ++ ex) x hnd'
          have hca : (t ++ ex).count x = t.count x + ex.count x :=
            List.count_append x t ex
          have key : (bfsTrace st dom f (t ++ ex) (res ++ ex)).count x ≤
              t.count x + (if x ∈ res then 0 else 1) := by
            by_cases hxr : x ∈ res
            · have hxe : x ∉ ex := fun h => (hm x h).1 hxr
              have h0 : ex.count x = 0 := List.count_eq_zero.mpr hxe
              have h1 : (if x ∈ res ++ ex then (0 : Nat) else 1) = 0 := by
                simp [hxr]
              rw [hca, h0, h1] at hih
              simpa [hxr] using hih
            · by_cases hxe : x ∈ ex
              · have h1 : (if x ∈ res ++ ex then (0 : Nat) else 1) = 0 := by
                  simp [hxe]
                have hle1 : ex.count x ≤ 1 :=
                  List.nodup_iff_count_le_one.mp hexn x
                rw [hca, h1] at hih
                simp only [if_neg hxr]
                omega
              · have h0 : ex.count x = 0 := List.count_eq_zero.mpr hxe
                have h1 : (if x ∈ res ++ ex then (0 : Nat) else 1) = 1 := by
                  simp [hxr, hxe]
                rw [hca, h0, h1] at hih
                simp only [if_neg hxr]
                omega
          rw [hstep]
          have e1 := List.count_cons x n (bfsTrace st dom f (t ++ ex) (res ++ ex))
          have e2 := List.count_cons x n t
          rw [e1, e2, Nat.add_right_comm]
          exact Nat.add_le_add_right key _

theorem beq_decide (a b : String) : (a == b) = decide (a = b) := by
  by_cases h : a = b <;> simp [h]

theorem matchFrom_one (rule : Rule) (e : String) :
    matchFrom rule [e] = decide (rule.get? 0 = some e) := by
  rcases rule with _ | ⟨a, t⟩ <;> simp [matchFrom, beq_decide]

theorem matchFrom_two (rule : Rule) (e d : String) :
    matchFrom rule [e, d] =
      (decide (rule.get? 0 = some e) && decide (rule.get? 1 = some d)) := by
  rcases rule with _ | ⟨a, _ | ⟨b, t⟩⟩ <;> simp [matchFrom, beq_decide]

theorem matchFrom_three (rule : Rule) (e d c : String) :
    matchFrom rule [e, d, c] =
      (decide (rule.get? 0 = some e) && decide (rule.get? 1 = some d) &&
        decide (rule.get? 2 = some c)) := by
  rcases rule with _ | ⟨a, _ | ⟨b, _ | ⟨x, t⟩⟩⟩ <;> simp [matchFrom, beq_decide, Bool.and_assoc]

theorem foldl_acc_append (f : String → List Rule) :
    ∀ (l : List String) (init : List Rule),
      l.foldl (fun acc e => acc ++ f e) init =
        init ++ l.foldl (fun acc e => acc ++ f e) [] := by
  intro l
  induction l with
  | nil => simp
  | cons e l ih =>
      intro init
      rw [List.foldl_cons, List.foldl_cons, ih (init ++ f e), ih ([] ++ f e)]
      simp

theorem count_fold (f : String → List Rule) (rule : Rule) :
    ∀ l : List String,
      ((l.foldl (fun acc e => acc ++ f e) []).count rule) =
        (l.map (fun e => (f e).count rule)).sum := by
  intro l
  induction l with
  | nil => simp
  | cons e l ih =>
      rw [List.foldl_cons, foldl_acc_append]
      simp [List.count_append, ih]

theorem lookup_updateAssoc (key : String) (v : List Rule) :
    ∀ gs : List (String × List Rule), (updateAssoc gs key v).lookup key = some v := by
  intro gs
  induction gs with
  | nil => simp [updateAssoc, List.lookup]
  | cons pr rest ih =>
      obtain ⟨k, rules⟩ := pr
      by_cases h : k = key
      · subst h
        simp [updateAssoc, List.lookup]
      · have hne : (key == k) = false := by
          simp [Ne.symm h]
        simp [updateAssoc, h, List.lookup, hne, ih]

theorem getG_setG (st : State) (rules : List Rule) : getG (setG st rules) = rules := by
  simp [getG, setG, lookup_updateAssoc]

/-- C1 counterexample: on the two-edge cycle `a -> b -> a` the closure is
`["b", "a"]`, not `["b"]`, and it contains the starting entity `a`. -/
theorem implicit_roles_cycle_contains_start :
    get_implicit_roles_for_user cycleState "a" none ≠ ["b"] ∧
      "a" ∈ get_implicit_roles_for_user cycleState "a" none :=
  ⟨by decide, by decide⟩

/-- C1 (amended): `get_implicit_roles_for_user` returns only roles reachable
from the starting entity by following grantee-to-grantor edges; the starting
entity itself may reappear when a cycle makes it reachable, and for the
two-edge cycle `a -> b -> a` the result is exactly `["b", "a"]`. -/
theorem implicit_roles_only_reachable :
    (∀ (st : State) (dom : Option String) (u r : String),
        r ∈ get_implicit_roles_for_user st u dom →
          Relation.TransGen (hasEdge st dom) u r) ∧
      get_implicit_roles_for_user cycleState "a" none = ["b", "a"] := by
  constructor
  · intro st dom u r h
    exact bfs_sound st dom u (initFuel st) [u] []
      (by simp) (fun x hx => Or.inl (by simpa using hx)) r h
  · rfl

/-- C1 witness: `b` is in the closure of `a` on the cycle, hence reachable. -/
theorem implicit_roles_only_reachable_witness :
    Relation.TransGen (hasEdge cycleState none) "a" "b" :=
  implicit_roles_only_reachable.1 cycleState none "a" "b" (by decide)

/-- C2: evaluating `delete_role` on a role `r` that appears only as a
permission subject leaves the store unchanged (the permission rule
`["r", "data1", "read"]` is not removed, because the removal coroutine on
line 70 is never awaited) and yields a truthy result instead of `false`. -/
theorem delete_role_missing_await_eval :
    (delete_role delState "r").1 = delState ∧ (delete_role delState "r").2 = true :=
  ⟨rfl, rfl⟩

/-- C3: on `p(admin, data1, read)`, `p(bob, data1, read)`, `g(alice, admin)`,
the code returns `["bob"]` — `alice` is never a candidate because the
candidate set is the permission-rule subjects minus the grantors and `alice`
holds no direct permission rule — even though `enforce(alice, data1, read)`
is true, contradicting the docstring example `["alice", "bob"]`. -/
theorem implicit_users_excludes_indirect_subject_eval :
    get_implicit_users_for_permission (rbacEnforce invState) invState
        ["data1", "read"] = ["bob"] ∧
      rbacEnforce invState ["alice", "data1", "read"] = true :=
  ⟨rfl, rfl⟩

/-- C4: the user's own direct permissions form a prefix of
`get_implicit_permissions_for_user` (own permissions come before inherited
ones), and on `p(admin, data1, read)`, `p(alice, data2, read)`,
`g(alice, admin)` the result is exactly
`[(alice, data2, read), (admin, data1, read)]`. -/
theorem implicit_permissions_own_first :
    (∀ (st : State) (u : String) (dom : Option String),
        permsFor st dom u <+: get_implicit_permissions_for_user st u dom) ∧
      get_implicit_permissions_for_user aggState "alice" none =
        [["alice", "data2", "read"], ["admin", "data1", "read"]] := by
  constructor
  · intro st u dom
    refine ⟨(get_implicit_roles_for_user st u dom).foldl
      (fun res role => res ++ permsFor st dom role) [], ?_⟩
    have hu : get_implicit_permissions_for_user st u dom =
        (get_implicit_roles_for_user st u dom).foldl
          (fun res role => res ++ permsFor st dom role) (permsFor st dom u) := rfl
    rw [hu]
    exact (foldl_acc_append (permsFor st dom)
      (get_implicit_roles_for_user st u dom) (permsFor st dom u)).symm
  · rfl

/-- C5: `get_implicit_permissions_for_user` never deduplicates — the number
of occurrences of a rule in the result is the sum, over all entities in the
iterated list, of its occurrences in that entity's direct permissions; on a
cycle where the user occurs twice in the list its direct permission appears
twice. -/
theorem implicit_permissions_no_dedup :
    (∀ (st : State) (u : String) (dom : Option String) (rule : Rule),
        (get_implicit_permissions_for_user st u dom).count rule =
          ((u :: get_implicit_roles_for_user st u dom).map
            (fun role => (permsFor st dom role).count rule)).sum) ∧
      get_implicit_permissions_for_user dupState "a" none =
        [["a", "data1", "read"], ["a", "data1", "read"]] := by
  constructor
  · intro st u dom rule
    exact count_fold (permsFor st dom) rule
      (u :: get_implicit_roles_for_user st u dom)
  · rfl

/-- C6: any role granted to the starting entity in any declared grouping
relation is in the implicit-role closure, and with `g` granting alice admin
and `g2` granting alice editor the closure of alice is
`["admin", "editor"]`. -/
theorem implicit_roles_all_relations :
    (∀ (st : State) (dom : Option String) (u r : String),
        hasEdge st dom u r → r ∈ get_implicit_roles_for_user st u dom) ∧
      get_implicit_roles_for_user twoRelState "alice" none =
        ["admin", "editor"] := by
  constructor
  · rintro st dom u r ⟨pr, hpr, hr⟩
    have h1 : r ∈ expand st dom u [] := mem_expandList st.gs dom u [] pr r hpr hr
    have heq : get_implicit_roles_for_user st u dom =
        bfsAux st dom (allGrantors st).length (expand st dom u [])
          (expand st dom u []) := rfl
    rw [heq]
    exact bfs_res_mono st dom _ _ _ r h1
  · rfl

/-- C6 witness: editor, granted through the second relation `g2`, is found. -/
theorem implicit_roles_all_relations_witness :
    "editor" ∈ get_implicit_roles_for_user twoRelState "alice" none :=
  implicit_roles_all_relations.1 twoRelState none "alice" "editor"
    ⟨("g2", [["alice", "editor"]]), by decide, by decide⟩

/-- C7 counterexample: on the two-edge cycle `a -> b -> a` the starting
entity `a` is popped and expanded twice by the traversal, so "every entity
is expanded at most once" fails as stated. -/
theorem start_expanded_twice_in_cycle :
    (bfsTrace cycleState none (initFuel cycleState) ["a"] []).count "a" = 2 :=
  rfl

/-- C7 (amended): the traversal terminates on every finite role graph,
cycles included — with fuel `initFuel` the queue is already drained, so any
extra fuel leaves the result unchanged — and because an entity already in
the result set is never enqueued again, every entity other than the
starting one is expanded at most once; the starting entity is expanded at
most twice (its initial pop plus at most one re-discovery through a
cycle). -/
theorem implicit_roles_terminates :
    (∀ (st : State) (dom : Option String) (name : String) (k : Nat),
        bfsAux st dom (initFuel st + k) [name] [] =
          get_implicit_roles_for_user st name dom) ∧
      (∀ (st : State) (dom : Option String) (name x : String), x ≠ name →
        (bfsTrace st dom (initFuel st) [name] []).count x ≤ 1) ∧
      (∀ (st : State) (dom : Option String) (name : String),
        (bfsTrace st dom (initFuel st) [name] []).count name ≤ 2) := by
  refine ⟨?_, ?_, ?_⟩
  · intro st dom name k
    exact (bfs_fuel_add st dom k (initFuel st) [name] []
      (meas_init_le st name)).symm
  · intro st dom name x hxn
    have h := trace_count st dom (initFuel st) [name] [] x (by simp)
    have h0 : ([name].count x) = 0 :=
      List.count_eq_zero.mpr (by simp [hxn])
    simp only [h0, List.not_mem_nil, if_neg] at h
    simpa using h
  · intro st dom name
    have h := trace_count st dom (initFuel st) [name] [] name (by simp)
    have h1 : ([name].count name) = 1 := by simp
    simp only [h1, List.not_mem_nil, if_neg] at h
    simpa using h

/-- C7 witness: on the cycle, the non-starting entity `b` is expanded at
most once. -/
theorem implicit_roles_terminates_witness :
    (bfsTrace cycleState none (initFuel cycleState) ["a"] []).count "b" ≤ 1 :=
  implicit_roles_terminates.2.1 cycleState none "a" "b" (by decide)

/-- C8 counterexample: when alice already holds admin, granting and then
revoking the role deletes the pre-existing rule instead of restoring the
pre-grant edge set. -/
theorem role_roundtrip_fails_when_held :
    getG ((delete_role_for_user (add_role_for_user heldState "alice" "admin").1
        "alice" "admin").1) = [] ∧
      getG heldState = [["alice", "admin"]] :=
  ⟨rfl, rfl⟩

/-- C8 (amended): when the user does not already hold the role,
`add_role_for_user` followed by `delete_role_for_user` restores the
grouping-rule set exactly; when the rule is already present the add is a
no-op and the delete removes the pre-existing rule, so the pre-grant set is
not restored. -/
theorem role_roundtrip_restores (st : State) (user role : String)
    (h : [user, role] ∉ getG st) :
    getG ((delete_role_for_user (add_role_for_user st user role).1
      user role).1) = getG st := by
  have hadd : (add_role_for_user st user role).1 =
      setG st (getG st ++ [[user, role]]) := by
    simp [add_role_for_user, add_grouping_policy, h]
  have hg1 : getG ((add_role_for_user st user role).1) =
      getG st ++ [[user, role]] := by
    rw [hadd, getG_setG]
  have hmem : [user, role] ∈ getG ((add_role_for_user st user role).1) := by
    rw [hg1]; simp
  have hdel : (delete_role_for_user (add_role_for_user st user role).1
      user role).1 =
      setG ((add_role_for_user st user role).1)
        ((getG ((add_role_for_user st user role).1)).erase [user, role]) := by
    simp [delete_role_for_user, remove_grouping_policy, hmem]
  rw [hdel, getG_setG, hg1, List.erase_append_right _ h]
  simp

/-- C8 witness: on a store with no grouping rules the round trip restores
the (empty) edge set. -/
theorem role_roundtrip_restores_witness :
    getG ((delete_role_for_user (add_role_for_user emptyState "alice" "admin").1
      "alice" "admin").1) = getG emptyState :=
  role_roundtrip_restores emptyState "alice" "admin" (by decide)

/-- C9: the per-entity permission fetch filters the permission family on the
entity at position 0 and — when a domain is supplied — the domain at
position 1, and `get_implicit_permissions_for_user` dispatches to the
domain-scoped fetch exactly when a domain is given. -/
theorem implicit_permissions_domain_positions :
    (∀ (st : State) (e d : String),
        get_permissions_for_user_in_domain st e d =
          st.p.filter (fun rule =>
            decide (rule.get? 0 = some e) && decide (rule.get? 1 = some d))) ∧
      (∀ (st : State) (e : String),
        get_permissions_for_user st e =
          st.p.filter (fun rule => decide (rule.get? 0 = some e))) ∧
      (∀ (st : State) (u d : String),
        get_implicit_permissions_for_user st u (some d) =
          (u :: get_implicit_roles_for_user st u (some d)).foldl
            (fun res role => res ++ get_permissions_for_user_in_domain st role d)
            []) ∧
      (∀ (st : State) (u : String),
        get_implicit_permissions_for_user st u none =
          (u :: get_implicit_roles_for_user st u none).foldl
            (fun res role => res ++ get_permissions_for_user st role) []) := by
  refine ⟨?_, ?_, fun st u d => rfl, fun st u => rfl⟩
  · intro st e d
    apply List.filter_congr
    intro rule _
    show matchFrom rule [e, d] = _
    exact matchFrom_two rule e d
  · intro st e
    apply List.filter_congr
    intro rule _
    show matchFrom rule [e] = _
    exact matchFrom_one rule e

/-- C10: `delete_roles_for_user_in_domain` keeps exactly the grouping rules
that do not match user, role and domain at positions 0, 1 and 2 (leaving
the permission family untouched), whereas the domain-less
`delete_roles_for_user` drops every grouping rule keyed by the user at
position 0 alone; on a user holding r1 and r2 in domain d, revoking r1
leaves r2. -/
theorem delete_role_in_domain_filters :
    (∀ (st : State) (u r d : String),
        getG (delete_roles_for_user_in_domain st u r d).1 =
          (getG st).filter (fun rule =>
            !(decide (rule.get? 0 = some u) && decide (rule.get? 1 = some r) &&
              decide (rule.get? 2 = some d))) ∧
        (delete_roles_for_user_in_domain st u r d).1.p = st.p) ∧
      (∀ (st : State) (u : String),
        getG (delete_roles_for_user st u).1 =
          (getG st).filter (fun rule => !decide (rule.get? 0 = some u))) ∧
      getG (delete_roles_for_user_in_domain domState "u" "r1" "d").1 =
        [["u", "r2", "d"]] := by
  refine ⟨fun st u r d => ⟨?_, rfl⟩, fun st u => ?_, rfl⟩
  · show getG (setG st ((getG st).filter
        (fun rl => !matchFrom (rl.drop 0) [u, r, d]))) = _
    rw [getG_setG]
    apply List.filter_congr
    intro rule _
    show (!matchFrom rule [u, r, d]) = _
    rw [matchFrom_three]
  · show getG (setG st ((getG st).filter
        (fun rl => !matchFrom (rl.drop 0) [u]))) = _
    rw [getG_setG]
    apply List.filter_congr
    intro rule _
    show (!matchFrom rule [u]) = _
    rw [matchFrom_one]
